import Mathlib

/-!
Verification of the e2e timewalker capture-and-replay engine.

The development shallowly embeds the engine's core components:
byte streams are `List Nat` (byte values), text is `List Char`,
and the stateful recorder / parser loops become explicit state-passing
recursions.  The external VT emulator (pyte) is kept abstract: the replay
parser is parameterised over an engine state type, a `feed` function and a
snapshot projection, exactly as the code treats it as an opaque sink.
-/

set_option maxRecDepth 4000

namespace Timewalker

/-- Convert a string literal to the `List Char` text representation. -/
def chars (s : String) : List Char := s.data

/-- The ESC control character (0x1b). -/
def ESC : Char := Char.ofNat 27

/-- The BEL control character (0x07). -/
def BEL : Char := Char.ofNat 7

/-! ### UTF-8 lossy decoding (Python `bytes.decode("utf-8", errors="ignore")`) -/

/-- A UTF-8 continuation byte (0x80–0xBF). -/
def isCont (b : Nat) : Bool := 0x80 ≤ b && b < 0xC0

/-- Valid first continuation byte of a three-byte sequence led by `b`
(excludes overlong encodings for 0xE0 and surrogates for 0xED). -/
def cont3ok (b b1 : Nat) : Bool :=
  if b = 0xE0 then 0xA0 ≤ b1 && b1 < 0xC0
  else if b = 0xED then 0x80 ≤ b1 && b1 < 0xA0
  else isCont b1

/-- Valid first continuation byte of a four-byte sequence led by `b`
(excludes overlong encodings for 0xF0 and values past U+10FFFF for 0xF4). -/
def cont4ok (b b1 : Nat) : Bool :=
  if b = 0xF0 then 0x90 ≤ b1 && b1 < 0xC0
  else if b = 0xF4 then 0x80 ≤ b1 && b1 < 0x90
  else isCont b1

/-- Fuel-indexed worker for the lossy UTF-8 decoder; every step consumes at
least one byte, so fuel equal to the input length is always sufficient. -/
def utf8DecodeLossyF : Nat → List Nat → List Char
  | 0, _ => []
  | _ + 1, [] => []
  | fuel + 1, b :: rest =>
    if b < 0x80 then Char.ofNat b :: utf8DecodeLossyF fuel rest
    else if b < 0xC2 then utf8DecodeLossyF fuel rest
    else if b < 0xE0 then
      match rest with
      | [] => []
      | b1 :: rest2 =>
        if isCont b1 then
          Char.ofNat ((b - 0xC0) * 0x40 + (b1 - 0x80)) :: utf8DecodeLossyF fuel rest2
        else utf8DecodeLossyF fuel rest
    else if b < 0xF0 then
      match rest with
      | [] => []
      | b1 :: rest2 =>
        if cont3ok b b1 then
          match rest2 with
          | [] => []
          | b2 :: rest3 =>
            if isCont b2 then
              Char.ofNat (((b - 0xE0) * 0x40 + (b1 - 0x80)) * 0x40 + (b2 - 0x80))
                :: utf8DecodeLossyF fuel rest3
            else utf8DecodeLossyF fuel rest2
        else utf8DecodeLossyF fuel rest
    else if b < 0xF5 then
      match rest with
      | [] => []
      | b1 :: rest2 =>
        if cont4ok b b1 then
          match rest2 with
          | [] => []
          | b2 :: rest3 =>
            if isCont b2 then
              match rest3 with
              | [] => []
              | b3 :: rest4 =>
                if isCont b3 then
                  Char.ofNat ((((b - 0xF0) * 0x40 + (b1 - 0x80)) * 0x40 + (b2 - 0x80)) * 0x40
                      + (b3 - 0x80)) :: utf8DecodeLossyF fuel rest4
                else utf8DecodeLossyF fuel rest3
            else utf8DecodeLossyF fuel rest2
        else utf8DecodeLossyF fuel rest
    else utf8DecodeLossyF fuel rest

/-- UTF-8 decoding with invalid bytes dropped, as `errors="ignore"` does:
ill-formed prefixes are skipped and decoding resumes after the rejected
range; a truncated trailing sequence is dropped. -/
def utf8DecodeLossy (l : List Nat) : List Char := utf8DecodeLossyF l.length l

/-- Number of bytes of the UTF-8 encoding of a character. -/
def utf8CharLen (c : Char) : Nat :=
  if c.toNat < 0x80 then 1
  else if c.toNat < 0x800 then 2
  else if c.toNat < 0x10000 then 3
  else 4

/-- Number of bytes of the UTF-8 encoding of a text. -/
def utf8Length (t : List Char) : Nat := (t.map utf8CharLen).sum

/-! ### Stream recorder (`recording.AnsiStreamRecorder`) -/

/-- The observable state of an `AnsiStreamRecorder`: the bytes persisted at
its path and the running offset counter. -/
structure RecorderState where
  fileData : List Nat
  offset : Nat
deriving DecidableEq

/-- A fresh recorder: the file is opened with mode `"wb"` (truncating), the
offset counter starts at zero. -/
def recorderInit : RecorderState := ⟨[], 0⟩

/-- `AnsiStreamRecorder.append`: an empty chunk is a no-op returning the
current offset; otherwise the chunk is written and the advanced offset is
returned. -/
def recAppend (s : RecorderState) (chunk : List Nat) : RecorderState × Nat :=
  if chunk = [] then (s, s.offset)
  else (⟨s.fileData ++ chunk, s.offset + chunk.length⟩, s.offset + chunk.length)

/-- Run a sequence of `append` calls. -/
def recRun (s : RecorderState) : List (List Nat) → RecorderState
  | [] => s
  | c :: cs => recRun (recAppend s c).1 cs

/-! ### PTY exit status (`pty_runner.PtyExitStatus`, `PtySessionRunner.wait`) -/

/-- `PtyExitStatus`: exit information for a PTY-backed subprocess. -/
structure PtyExitStatus where
  returncode : Option Int
  signal : Option Int
deriving DecidableEq

/-- `PtyExitStatus.succeeded`: `self.returncode == 0 and self.signal is None`. -/
def succeeded (s : PtyExitStatus) : Bool :=
  s.returncode == some 0 && s.signal == none

/-- The translation `PtySessionRunner.wait` applies to the child's observed
returncode (`None` when the process object reports no code). -/
def waitExit (rc : Option Int) : PtyExitStatus :=
  match rc with
  | none => ⟨none, none⟩
  | some r => if r < 0 then ⟨none, some |r|⟩ else ⟨some r, none⟩

/-! ### Normalizer (`replay.PrivateSequenceHandler`) -/

/-- `TerminalCapabilities` with both capabilities defaulting to false. -/
structure TerminalCapabilities where
  supports_dec_private : Bool := false
  allow_osc : Bool := false
deriving DecidableEq

/-- `ParseWarning {kind, original, normalized, message}`. -/
structure ParseWarning where
  kind : List Char
  original : List Char
  normalized : Option (List Char) := none
  message : Option (List Char) := none
deriving DecidableEq

/-- `WarningEntry {offset, warning}` as collected by `WarningCollector`. -/
structure WarningEntry where
  offset : Nat
  warning : ParseWarning
deriving DecidableEq

/-- The start of every run of ten decimal digits of Unicode category Nd
(Unicode 14.0, the table of the host CPython's `unicodedata`).  Nd consists
exactly of contiguous runs `base..base+9`, and Python's `\d` in a `str`
pattern matches exactly the Nd characters. -/
def ndDigitRangeStarts : List Nat :=
  [0x30, 0x660, 0x6F0, 0x7C0, 0x966, 0x9E6, 0xA66, 0xAE6, 0xB66, 0xBE6,
   0xC66, 0xCE6, 0xD66, 0xDE6, 0xE50, 0xED0, 0xF20, 0x1040, 0x1090, 0x17E0,
   0x1810, 0x1946, 0x19D0, 0x1A80, 0x1A90, 0x1B50, 0x1BB0, 0x1C40, 0x1C50,
   0xA620, 0xA8D0, 0xA900, 0xA9D0, 0xA9F0, 0xAA50, 0xABF0, 0xFF10,
   0x104A0, 0x10D30, 0x11066, 0x110F0, 0x11136, 0x111D0, 0x112F0, 0x11450,
   0x114D0, 0x11650, 0x116C0, 0x11730, 0x118E0, 0x11950, 0x11C50, 0x11D50,
   0x11DA0, 0x16A60, 0x16AC0, 0x16B50,
   0x1D7CE, 0x1D7D8, 0x1D7E2, 0x1D7EC, 0x1D7F6,
   0x1E140, 0x1E2F0, 0x1E950, 0x1FBF0]

/-- A Unicode decimal digit (category Nd): what Python's `\d` matches in a
`str` pattern. -/
def isNdDigit (c : Char) : Bool :=
  ndDigitRangeStarts.any (fun base => base ≤ c.toNat && c.toNat < base + 10)

/-- A parameter character of a DEC private sequence: the class `[\d;]`, with
`\d` covering every Unicode decimal digit. -/
def decParamChar (c : Char) : Bool := isNdDigit c || c = ';'

/-- Anchored match of `_DEC_PRIVATE_RE = ESC \[ (\?[\d;]*) ([hl])` at the head
of `t`: the matched sequence and the remainder.  `h`/`l` are not parameter
characters, so the greedy `[\d;]*` can only match the maximal run and no
backtracking case arises. -/
def decMatchAt (t : List Char) : Option (List Char × List Char) :=
  match t with
  | e :: br :: q :: rest =>
    if e = ESC ∧ br = '[' ∧ q = '?' then
      match rest.dropWhile decParamChar with
      | f :: rest2 =>
        if f = 'h' ∨ f = 'l' then
          some (e :: br :: q :: (rest.takeWhile decParamChar ++ [f]), rest2)
        else none
      | [] => none
    else none
  | _ => none

/-- The non-greedy DOTALL body of `_OSC_RE = ESC \] .*? (BEL | ESC \)`: the
sequence ends at the first BEL or at the first `ESC \` pair, whichever comes
first; returns the consumed body, terminator included, and the remainder.
`none` when no terminator follows, in which case the regex has no match. -/
def oscBody : List Char → Option (List Char × List Char)
  | [] => none
  | [c] => if c = BEL then some ([c], []) else none
  | c :: d :: rest2 =>
    if c = BEL then some ([c], d :: rest2)
    else if c = ESC ∧ d = '\\' then some ([c, d], rest2)
    else
      match oscBody (d :: rest2) with
      | some (body, r) => some (c :: body, r)
      | none => none

/-- Anchored match of `_OSC_RE` at the head of `t`. -/
def oscMatchAt (t : List Char) : Option (List Char × List Char) :=
  match t with
  | e :: br :: rest =>
    if e = ESC ∧ br = ']' then
      match oscBody rest with
      | some (body, r) => some (e :: br :: body, r)
      | none => none
    else none
  | _ => none

/-- The left-to-right non-overlapping scan performed by `re.sub`: at each
position try the anchored matcher; on a match emit it and resume after it,
otherwise emit the single character and advance.  Fuel-indexed; fuel equal to
the input length is always sufficient because a match is never empty. -/
def scanWithF (m : List Char → Option (List Char × List Char)) :
    Nat → List Char → List (Char ⊕ List Char)
  | 0, _ => []
  | _ + 1, [] => []
  | fuel + 1, c :: t =>
    match m (c :: t) with
    | some (s, r) => Sum.inr s :: scanWithF m fuel r
    | none => Sum.inl c :: scanWithF m fuel t

/-- Scan of a text for `_DEC_PRIVATE_RE` matches. -/
def decScan (t : List Char) : List (Char ⊕ List Char) := scanWithF decMatchAt t.length t

/-- Scan of a text for `_OSC_RE` matches. -/
def oscScan (t : List Char) : List (Char ⊕ List Char) := scanWithF oscMatchAt t.length t

/-- The text a scan piece stands for in the original input. -/
def pieceOrig : Char ⊕ List Char → List Char
  | Sum.inl c => [c]
  | Sum.inr s => s

/-- The text a scan piece contributes to the substituted output: the
replacement callback returns the match itself when the capability allows the
sequence and the empty string otherwise. -/
def pieceOut (keep : Bool) : Char ⊕ List Char → List Char
  | Sum.inl c => [c]
  | Sum.inr s => if keep then s else []

/-- The matched occurrences of a scan, in order. -/
def scanMatches (ps : List (Char ⊕ List Char)) : List (List Char) :=
  ps.filterMap (fun p => match p with | Sum.inr s => some s | Sum.inl _ => none)

/-- The unmatched segments of a scan: the stretches of literal characters
before, between and after the matches (`matches + 1` many). -/
def scanSegs : List (Char ⊕ List Char) → List (List Char)
  | [] => [[]]
  | Sum.inl c :: ps =>
    match scanSegs ps with
    | s :: ss => (c :: s) :: ss
    | [] => [[c]]
  | Sum.inr _ :: ps => [] :: scanSegs ps

/-- Interleave `n + 1` segments with `n` matches:
`s₀ ++ m₁ ++ s₁ ++ … ++ mₙ ++ sₙ`. -/
def interleaveJoin : List (List Char) → List (List Char) → List Char
  | [], _ => []
  | s :: _, [] => s
  | s :: ss, m :: ms => s ++ m ++ interleaveJoin ss ms

/-- Reassembled original text of a scan. -/
def reassemble (ps : List (Char ⊕ List Char)) : List Char := (ps.map pieceOrig).flatten

/-- Lowercase hexadecimal digit. -/
def hexDigit (n : Nat) : Char :=
  if n < 10 then Char.ofNat (48 + n) else Char.ofNat (87 + n)

/-- Four lowercase hexadecimal digits. -/
def hex4 (n : Nat) : List Char :=
  [hexDigit (n / 4096 % 16), hexDigit (n / 256 % 16), hexDigit (n / 16 % 16), hexDigit (n % 16)]

/-- JSON escaping of one character as `json.dumps` performs it with its
default `ensure_ascii=True`: quote, backslash and the five short control
escapes, printable ASCII verbatim, everything else as `\uXXXX` with a
surrogate pair above U+FFFF. -/
def jsonEscapeChar (c : Char) : List Char :=
  if c = Char.ofNat 34 then ['\\', Char.ofNat 34]
  else if c = '\\' then ['\\', '\\']
  else if c = Char.ofNat 8 then ['\\', 'b']
  else if c = Char.ofNat 9 then ['\\', 't']
  else if c = Char.ofNat 10 then ['\\', 'n']
  else if c = Char.ofNat 12 then ['\\', 'f']
  else if c = Char.ofNat 13 then ['\\', 'r']
  else if 0x20 ≤ c.toNat ∧ c.toNat ≤ 0x7e then [c]
  else if c.toNat < 0x10000 then '\\' :: 'u' :: hex4 c.toNat
  else
    ('\\' :: 'u' :: hex4 (0xd800 + (c.toNat - 0x10000) / 0x400))
      ++ ('\\' :: 'u' :: hex4 (0xdc00 + (c.toNat - 0x10000) % 0x400))

/-- `_repr_escape(seq) = json.dumps(seq)[1:-1]`: the JSON-escaped body
without the enclosing quotes. -/
def reprEscape (s : List Char) : List Char := (s.map jsonEscapeChar).flatten

/-- The warning `_dec_repl` records for a suppressed DEC private sequence. -/
def mkDecWarning (m : List Char) : ParseWarning :=
  ⟨chars "dec-private", reprEscape m, some [], none⟩

/-- The warning `_osc_repl` records for a suppressed OSC sequence. -/
def mkOscWarning (m : List Char) : ParseWarning :=
  ⟨chars "osc-suppressed", reprEscape m, some [], none⟩

/-- One `re.sub` pass with the handler's replacement callback: when the
capability allows the sequence the match is returned unchanged and no warning
is recorded; otherwise the match is replaced by the empty string and one
warning per match is appended, in match order. -/
def subAndWarns (keep : Bool) (mkW : List Char → ParseWarning)
    (ps : List (Char ⊕ List Char)) : List Char × List ParseWarning :=
  ((ps.map (pieceOut keep)).flatten, if keep then [] else (scanMatches ps).map mkW)

/-- `PrivateSequenceHandler.normalize` after UTF-8 decoding: the DEC-private
substitution over the decoded text, then the OSC substitution over its result,
warnings of the first pass before those of the second. -/
def normalizeText (caps : TerminalCapabilities) (t : List Char) :
    List Char × List ParseWarning :=
  let p1 := subAndWarns caps.supports_dec_private mkDecWarning (decScan t)
  let p2 := subAndWarns caps.allow_osc mkOscWarning (oscScan p1.1)
  (p2.1, p1.2 ++ p2.2)

/-- `PrivateSequenceHandler.normalize`: lossy-decode the chunk, then apply
both substitution passes. -/
def normalize (caps : TerminalCapabilities) (chunk : List Nat) :
    List Char × List ParseWarning :=
  normalizeText caps (utf8DecodeLossy chunk)

/-- The DEC-private occurrences of a text (leftmost, non-overlapping). -/
def decOccs (t : List Char) : List (List Char) := scanMatches (decScan t)

/-- The OSC occurrences of a text (leftmost, non-overlapping). -/
def oscOccs (t : List Char) : List (List Char) := scanMatches (oscScan t)

/-- The text with its DEC-private occurrences deleted. -/
def decDelete (t : List Char) : List Char := ((decScan t).map (pieceOut false)).flatten

/-- The text with its OSC occurrences deleted. -/
def oscDelete (t : List Char) : List Char := ((oscScan t).map (pieceOut false)).flatten

/-! ### Screen states and keyframe correlation (`replay.py`, `recording.Keyframe`) -/

/-- `CellStyle {char, fg, bg, bold, reverse}`. -/
structure CellStyle where
  char : Char
  fg : Option (List Char)
  bg : Option (List Char)
  bold : Bool
  reverse : Bool
deriving DecidableEq

/-- `ScreenState {offset, cursor_row, cursor_col, cells}`. -/
structure ScreenState where
  offset : Nat
  cursor_row : Nat
  cursor_col : Nat
  cells : List (List CellStyle)
deriving DecidableEq

/-- `Keyframe {label, offset, timestamp}`. -/
structure Keyframe where
  label : List Char
  offset : Nat
  timestamp : Float

/-- The loop of `_locate_state`: return the first state whose offset is at or
past the requested offset. -/
def locateLoop (offset : Nat) : List ScreenState → Option ScreenState
  | [] => none
  | s :: rest => if s.offset ≥ offset then some s else locateLoop offset rest

/-- `_locate_state`: first state with `state.offset >= offset`, else
`states[-1] if states else None`. -/
def locateState (states : List ScreenState) (offset : Nat) : Option ScreenState :=
  match locateLoop offset states with
  | some s => some s
  | none => states.getLast?

/-- Assignment to a Python `dict` preserved as an association list with unique
keys: replace in place when the key exists, append otherwise. -/
def dictInsert : List (List Char × ScreenState) → List Char → ScreenState →
    List (List Char × ScreenState)
  | [], k, v => [(k, v)]
  | (k', v') :: rest, k, v =>
    if k' = k then (k, v) :: rest else (k', v') :: dictInsert rest k v

/-- Lookup in the association-list rendering of a Python `dict`. -/
def dictGet (m : List (List Char × ScreenState)) (k : List Char) : Option ScreenState :=
  (m.find? (fun e => e.1 == k)).map (fun e => e.2)

/-- `extract_keyframes(states, keyframes)`: empty mapping when `states` is
empty; otherwise one `mapping[frame.label] = candidate` dict assignment per
keyframe whose candidate is found. -/
def extract_keyframes (states : List ScreenState) (kfs : List Keyframe) :
    List (List Char × ScreenState) :=
  if states = [] then []
  else
    kfs.foldl
      (fun m frame =>
        match locateState states frame.offset with
        | some c => dictInsert m frame.label c
        | none => m)
      []

/-! ### ANSI replay parser (`replay.AnsiReplayParser.parse`)

The pyte screen and stream are external: the parser is parameterised over an
engine state type `σ`, the `feed` action and the projection `snap` that
`_snapshot` reads (cursor position and cell matrix); `_snapshot` passes the
byte counter through into `ScreenState.offset` unchanged. -/

/-- The data `_snapshot` reads off the VT engine. -/
structure SnapInfo where
  cursor_row : Nat
  cursor_col : Nat
  cells : List (List CellStyle)
deriving DecidableEq

/-- `_snapshot`: build a `ScreenState` from the engine data at an offset. -/
def mkState (info : SnapInfo) (offset : Nat) : ScreenState :=
  ⟨offset, info.cursor_row, info.cursor_col, info.cells⟩

/-- `ReplayResult {states, warnings}`. -/
structure ReplayResult where
  states : List ScreenState
  warnings : List WarningEntry
deriving DecidableEq

/-- The chunk loop of `parse`: normalize the raw chunk, record its warnings at
the pre-chunk offset, advance the raw byte counter, skip empty normalized
text, otherwise feed the engine and append a snapshot at the post-chunk
counter.  Returns the result and the final engine state. -/
def parseGo {σ : Type} (caps : TerminalCapabilities) (feed : σ → List Char → σ)
    (snap : σ → SnapInfo) :
    List (List Nat) → σ → Nat → List ScreenState → List WarningEntry → ReplayResult × σ
  | [], screen, _, states, ws => (⟨states, ws⟩, screen)
  | raw :: rest, screen, counter, states, ws =>
    let nw := normalize caps raw
    let ws2 := ws ++ nw.2.map (fun w => ⟨counter, w⟩)
    let counter2 := counter + raw.length
    if nw.1 = [] then parseGo caps feed snap rest screen counter2 states ws2
    else
      let screen2 := feed screen nw.1
      parseGo caps feed snap rest screen2 counter2
        (states ++ [mkState (snap screen2) counter2]) ws2

/-- `parse` on an explicit chunk sequence, from a reset counter/collector. -/
def parseChunks {σ : Type} (caps : TerminalCapabilities) (feed : σ → List Char → σ)
    (init : σ) (snap : σ → SnapInfo) (chunks : List (List Nat)) : ReplayResult × σ :=
  parseGo caps feed snap chunks init 0 [] []

/-- Fuel-indexed worker cutting a file into reads of at most `csize` bytes. -/
def chunkifyF : Nat → Nat → List Nat → List (List Nat)
  | 0, _, _ => []
  | _ + 1, _, [] => []
  | fuel + 1, csize, b :: l => (b :: l).take csize :: chunkifyF fuel csize ((b :: l).drop csize)

/-- The chunking `handle.read(chunk_size)` produces on a regular file: maximal
reads of `chunk_size` bytes until exhaustion (`read(0)` returns no data, so a
zero chunk size reads nothing). -/
def chunkify (csize : Nat) (l : List Nat) : List (List Nat) :=
  if csize = 0 then [] else chunkifyF l.length csize l

/-- `AnsiReplayParser.parse` over a file's bytes. -/
def parse {σ : Type} (caps : TerminalCapabilities) (feed : σ → List Char → σ)
    (init : σ) (snap : σ → SnapInfo) (file : List Nat) (csize : Nat) : ReplayResult × σ :=
  parseChunks caps feed init snap (chunkify csize file)

/-! ### Output buffer wait loop (`script.OutputBuffer.wait_until`) -/

/-- Trace semantics of `wait_until`: each trace element is one evaluation
moment of the loop — the decoded buffer observed under the lock and the
remaining time to the deadline at that iteration.  Real time and condition
wakeups are abstracted into this observation sequence; `none` means the trace
ended before the loop decided, which a finite timeout rules out because the
remaining time eventually reaches zero. -/
def waitUntilTrace (p : List Char → Bool) : List (List Char × Int) → Option Bool
  | [] => none
  | (buf, rem) :: rest =>
    if p buf then some true
    else if rem ≤ 0 then some false
    else waitUntilTrace p rest

/-! ### Output conditions and driver failure payloads (`script.py`) -/

/-- `OutputCondition {contains, regex, predicate}`. -/
structure OutputCondition where
  contains : Option (List Char) := none
  regex : Option (List Char) := none
  predicate : Option (List Char → Bool) := none

/-- `OutputCondition.matches`, verbatim including the truthiness guards:
`if self.contains and self.contains in text`, `if self.regex and
re.search(self.regex, text)`, `if self.predicate and self.predicate(text)`.
The host regex engine is the abstract `search`. -/
def ocMatches (search : List Char → List Char → Bool) (c : OutputCondition)
    (text : List Char) : Bool :=
  if (match c.contains with
      | some s => !s.isEmpty && decide (List.IsInfix s text)
      | none => false) then true
  else if (match c.regex with
      | some r => !r.isEmpty && search r text
      | none => false) then true
  else if (match c.predicate with
      | some p => p text
      | none => false) then true
  else false

/-- `OutputCondition.__post_init__`: all three fields absent is rejected, and
a present regex must compile (`valid` is the host's regex-syntax check). -/
def mkOutputCondition (valid : List Char → Bool) (co re : Option (List Char))
    (pr : Option (List Char → Bool)) : Except (List Char) OutputCondition :=
  if co.isNone && re.isNone && pr.isNone then
    Except.error (chars "At least one condition must be provided")
  else
    match re with
    | some r =>
      if valid r then Except.ok ⟨co, re, pr⟩
      else Except.error (chars "invalid regex pattern")
    | none => Except.ok ⟨co, re, pr⟩

/-- Escaping of one character in Python's `repr` of a string with quote
character `q` (ASCII rules; printable non-ASCII passes through and the
host's Unicode printability table is not modelled). -/
def pyReprEscapeChar (q : Char) (c : Char) : List Char :=
  if c = '\\' then ['\\', '\\']
  else if c = q then ['\\', q]
  else if c = Char.ofNat 10 then ['\\', 'n']
  else if c = Char.ofNat 13 then ['\\', 'r']
  else if c = Char.ofNat 9 then ['\\', 't']
  else if c.toNat < 0x20 ∨ c.toNat = 0x7f then
    ['\\', 'x', hexDigit (c.toNat / 16), hexDigit (c.toNat % 16)]
  else [c]

/-- Python `repr` of a string: single quotes unless the text contains a
single quote but no double quote. -/
def pyReprStr (s : List Char) : List Char :=
  let q := if s.contains (Char.ofNat 39) && !(s.contains (Char.ofNat 34))
    then Char.ofNat 34 else Char.ofNat 39
  q :: ((s.map (pyReprEscapeChar q)).flatten ++ [q])

/-- `OutputCondition.__repr__`; the host renders the predicate field as an
opaque function object, supplied here as `predRepr`. -/
def ocRepr (predRepr : List Char) (c : OutputCondition) : List Char :=
  let parts : List (List Char) :=
    (match c.contains with
     | some s => [chars "contains=" ++ pyReprStr s]
     | none => [])
    ++ (match c.regex with
     | some r => [chars "regex=" ++ pyReprStr r]
     | none => [])
    ++ (match c.predicate with
     | some _ => [chars "predicate=" ++ predRepr]
     | none => [])
  chars "OutputCondition(" ++ (List.intercalate (chars ", ") parts) ++ chars ")"

/-- Python `text[-200:]`: the last `min(200, len(text))` characters. -/
def tail200 (t : List Char) : List Char := t.drop (t.length - 200)

/-- The message `_run_input_step` raises when the expectation stays unmet. -/
def inputStepTimeoutMsg (condRepr bufText : List Char) : List Char :=
  chars "Condition not met for input step. Expectation: " ++ condRepr
    ++ chars ", buffer tail: " ++ tail200 bufText

/-- The message `_run_wait_step` raises when the condition stays unmet. -/
def waitStepTimeoutMsg (condRepr bufText : List Char) : List Char :=
  chars "Wait step timed out. Expectation: " ++ condRepr
    ++ chars ", buffer tail: " ++ tail200 bufText

/-- The expect branch of `_run_input_step` after `wait_until` returned
`matched`, with `bufText` the decoded buffer at failure time. -/
def inputExpectOutcome (matched : Bool) (condRepr bufText : List Char) :
    Except (List Char) Unit :=
  if matched then Except.ok () else Except.error (inputStepTimeoutMsg condRepr bufText)

/-- `_run_wait_step` after `wait_until` returned `matched`. -/
def waitStepOutcome (matched : Bool) (condRepr bufText : List Char) :
    Except (List Char) Unit :=
  if matched then Except.ok () else Except.error (waitStepTimeoutMsg condRepr bufText)

/-! ## Theorems -/

/-- Closed form of a run of recorder appends: the file accumulates the
concatenation of the chunks and the offset advances by the total length. -/
theorem recRun_spec : ∀ (chunks : List (List Nat)) (s : RecorderState),
    recRun s chunks = ⟨s.fileData ++ chunks.flatten, s.offset + (chunks.map List.length).sum⟩
  | [], s => by simp [recRun]
  | c :: cs, s => by
    by_cases h : c = []
    · subst h
      rw [recRun, recRun_spec cs]
      simp [recAppend]
    · rw [recRun, recRun_spec cs]
      simp [recAppend, h, List.append_assoc, Nat.add_assoc]

/-- C3: on a fresh recorder, a sequence of `append(chunk_i)` calls leaves the
final offset at `Σ len(chunk_i)` and the persisted file equal to the
concatenation of the chunks in call order; an empty append is a no-op
returning the current offset, and a non-empty append returns the offset
after that append. -/
theorem c3_recorder_append (chunks : List (List Nat)) (s : RecorderState) (c : List Nat) :
    (recRun recorderInit chunks).offset = (chunks.map List.length).sum
  ∧ (recRun recorderInit chunks).fileData = chunks.flatten
  ∧ recAppend s [] = (s, s.offset)
  ∧ (c ≠ [] → recAppend s c = (⟨s.fileData ++ c, s.offset + c.length⟩, s.offset + c.length)) := by
  refine ⟨?_, ?_, ?_, ?_⟩
  · rw [recRun_spec]; simp [recorderInit]
  · rw [recRun_spec]; simp [recorderInit]
  · simp [recAppend]
  · intro h; simp [recAppend, h]

/-- C3 witness: concrete appends `[104, 105]` then `[33]`. -/
theorem c3_recorder_append_witness :
    (recRun recorderInit [[104, 105], [33]]).offset = 3
  ∧ (recRun recorderInit [[104, 105], [33]]).fileData = [104, 105, 33]
  ∧ recAppend ⟨[104], 1⟩ [] = (⟨[104], 1⟩, 1)
  ∧ recAppend ⟨[104], 1⟩ [105] = (⟨[104, 105], 2⟩, 2) := by
  have h := c3_recorder_append [[104, 105], [33]] ⟨[104], 1⟩ [105]
  exact ⟨h.1.trans (by decide), h.2.1.trans (by decide), h.2.2.1,
    (h.2.2.2 (by decide)).trans (by decide)⟩

/-! ### Scan infrastructure -/

theorem scanWithF_nil (m : List Char → Option (List Char × List Char)) (f : Nat) :
    scanWithF m f [] = [] := by
  cases f <;> rfl

/-- A DEC-private match splits its input and is non-empty. -/
theorem decMatchAt_spec {t s r : List Char} (h : decMatchAt t = some (s, r)) :
    t = s ++ r ∧ s ≠ [] := by
  unfold decMatchAt at h
  split at h
  next e br q rest =>
    split at h
    next hc =>
      obtain ⟨he, hbr, hq⟩ := hc
      split at h
      next f rest2 hd =>
        split at h
        next hf =>
          rw [Option.some_inj] at h
          have hs : s = e :: br :: q :: (rest.takeWhile decParamChar ++ [f]) :=
            (congrArg Prod.fst h).symm
          have hr : r = rest2 := (congrArg Prod.snd h).symm
          subst hs; subst hr; subst he; subst hbr; subst hq
          refine ⟨?_, by simp⟩
          conv_lhs => rw [← List.takeWhile_append_dropWhile (p := decParamChar) (l := rest)]
          rw [hd]
          simp [List.append_assoc]
        next => exact absurd h (by simp)
      next => exact absurd h (by simp)
    next => exact absurd h (by simp)
  next => exact absurd h (by simp)

/-- An OSC body splits its input and is non-empty, and it ends with one of
the two terminators. -/
theorem oscBody_spec : ∀ {b p r : List Char}, oscBody b = some (p, r) →
    (b = p ++ r ∧ p ≠ []) ∧ ∃ pre, p = pre ++ [BEL] ∨ p = pre ++ [ESC, '\\']
  | [], _, _, h => by simp [oscBody] at h
  | [c], p, r, h => by
    unfold oscBody at h
    by_cases hb : c = BEL
    · rw [if_pos hb] at h
      rw [Option.some_inj] at h
      have hp : p = [c] := (congrArg Prod.fst h).symm
      have hr : r = [] := (congrArg Prod.snd h).symm
      subst hp; subst hr; subst hb
      exact ⟨⟨rfl, by simp⟩, [], Or.inl rfl⟩
    · rw [if_neg hb] at h
      exact absurd h (by simp)
  | c :: d :: rest2, p, r, h => by
    unfold oscBody at h
    by_cases hb : c = BEL
    · rw [if_pos hb] at h
      rw [Option.some_inj] at h
      have hp : p = [c] := (congrArg Prod.fst h).symm
      have hr : r = d :: rest2 := (congrArg Prod.snd h).symm
      subst hp; subst hr; subst hb
      exact ⟨⟨rfl, by simp⟩, [], Or.inl rfl⟩
    · rw [if_neg hb] at h
      by_cases he : c = ESC ∧ d = '\\'
      · rw [if_pos he] at h
        rw [Option.some_inj] at h
        have hp : p = [c, d] := (congrArg Prod.fst h).symm
        have hr : r = rest2 := (congrArg Prod.snd h).symm
        subst hp; subst hr
        obtain ⟨he1, he2⟩ := he
        subst he1; subst he2
        exact ⟨⟨rfl, by simp⟩, [], Or.inr rfl⟩
      · rw [if_neg he] at h
        split at h
        next body r' hrec =>
          rw [Option.some_inj] at h
          have hp : p = c :: body := (congrArg Prod.fst h).symm
          have hr : r = r' := (congrArg Prod.snd h).symm
          subst hp; subst hr
          obtain ⟨⟨hsplit, _⟩, pre, hterm⟩ := oscBody_spec hrec
          refine ⟨⟨?_, by simp⟩, c :: pre, ?_⟩
          · rw [List.cons_append, ← hsplit]
          · cases hterm with
            | inl ht => exact Or.inl (by rw [ht]; rfl)
            | inr ht => exact Or.inr (by rw [ht]; rfl)
        next => exact absurd h (by simp)

/-- An OSC match splits its input and is non-empty. -/
theorem oscMatchAt_spec {t s r : List Char} (h : oscMatchAt t = some (s, r)) :
    t = s ++ r ∧ s ≠ [] := by
  unfold oscMatchAt at h
  split at h
  next e br rest =>
    split at h
    next hc =>
      obtain ⟨he, hbr⟩ := hc
      split at h
      next body r' hrec =>
        rw [Option.some_inj] at h
        have hs : s = e :: br :: body := (congrArg Prod.fst h).symm
        have hr : r = r' := (congrArg Prod.snd h).symm
        subst hs; subst hr; subst he; subst hbr
        obtain ⟨⟨hsplit, _⟩, _⟩ := oscBody_spec hrec
        exact ⟨by rw [List.cons_append, List.cons_append, ← hsplit], by simp⟩
      next => exact absurd h (by simp)
    next => exact absurd h (by simp)
  next => exact absurd h (by simp)

section ScanLemmas

variable {m : List Char → Option (List Char × List Char)}

/-- With enough fuel, one scan step either consumes a match or one char. -/
theorem scanWithF_reassemble
    (hm : ∀ {t s r}, m t = some (s, r) → t = s ++ r ∧ s ≠ []) :
    ∀ (f : Nat) (t : List Char), t.length ≤ f → reassemble (scanWithF m f t) = t := by
  intro f
  induction f with
  | zero =>
    intro t ht
    rw [List.length_eq_zero.mp (Nat.le_zero.mp ht)]
    rfl
  | succ n ih =>
    intro t ht
    match t with
    | [] => rfl
    | c :: t' =>
      rw [show scanWithF m (n + 1) (c :: t')
            = match m (c :: t') with
              | some (s, r) => Sum.inr s :: scanWithF m n r
              | none => Sum.inl c :: scanWithF m n t' from rfl]
      match hmt : m (c :: t') with
      | some (s, r) =>
        obtain ⟨hsplit, hne⟩ := hm hmt
        have hr : r.length ≤ n := by
          have hlen := congrArg List.length hsplit
          rw [List.length_append] at hlen
          have hs1 : 1 ≤ s.length := List.length_pos.mpr hne
          have hcl : (c :: t').length = t'.length + 1 := by simp
          omega
        simp only [reassemble, List.map_cons, List.flatten_cons]
        rw [show pieceOrig (Sum.inr s) = s from rfl]
        have := ih r hr
        rw [show (List.map pieceOrig (scanWithF m n r)).flatten = reassemble (scanWithF m n r)
          from rfl, this, hsplit]
      | none =>
        simp only [reassemble, List.map_cons, List.flatten_cons]
        rw [show pieceOrig (Sum.inl c) = [c] from rfl]
        have := ih t' (by simp only [List.length_cons] at ht; omega)
        rw [show (List.map pieceOrig (scanWithF m n t')).flatten = reassemble (scanWithF m n t')
          from rfl, this]
        rfl

/-- A scan with no matched occurrence is the literal char-by-char scan. -/
theorem scanWithF_all_lit_of_matches_nil :
    ∀ (f : Nat) (t : List Char), t.length ≤ f →
      scanMatches (scanWithF m f t) = [] → scanWithF m f t = t.map Sum.inl := by
  intro f
  induction f with
  | zero =>
    intro t ht _
    rw [List.length_eq_zero.mp (Nat.le_zero.mp ht)]
    rfl
  | succ n ih =>
    intro t ht hmat
    match t with
    | [] => rfl
    | c :: t' =>
      have hstep : scanWithF m (n + 1) (c :: t')
          = match m (c :: t') with
            | some (s, r) => Sum.inr s :: scanWithF m n r
            | none => Sum.inl c :: scanWithF m n t' := rfl
      match hmt : m (c :: t') with
      | some (s, r) =>
        rw [hstep, hmt] at hmat
        exact absurd hmat (by simp [scanMatches])
      | none =>
        rw [hstep, hmt] at hmat ⊢
        simp only [scanMatches, List.filterMap_cons] at hmat
        rw [List.map_cons, ih t' (by simp only [List.length_cons] at ht; omega) hmat]

/-- A scan over text on which the matcher fails at every head position is
the literal char-by-char scan. -/
theorem scanWithF_all_lit_of_head_none
    (hnone : ∀ (c : Char) (u : List Char), c ≠ ESC → m (c :: u) = none) :
    ∀ (f : Nat) (t : List Char), t.length ≤ f → (∀ c ∈ t, c ≠ ESC) →
      scanWithF m f t = t.map Sum.inl := by
  intro f
  induction f with
  | zero =>
    intro t ht _
    rw [List.length_eq_zero.mp (Nat.le_zero.mp ht)]
    rfl
  | succ n ih =>
    intro t ht hesc
    match t with
    | [] => rfl
    | c :: t' =>
      have hstep : scanWithF m (n + 1) (c :: t')
          = match m (c :: t') with
            | some (s, r) => Sum.inr s :: scanWithF m n r
            | none => Sum.inl c :: scanWithF m n t' := rfl
      rw [hstep, hnone c t' (hesc c (by simp)), List.map_cons,
        ih t' (by simp only [List.length_cons] at ht; omega)
          (fun x hx => hesc x (by simp [hx]))]

/-- Every matched occurrence of a scan is produced by the anchored matcher. -/
theorem scanWithF_matches_from_matcher :
    ∀ (f : Nat) (t s : List Char), s ∈ scanMatches (scanWithF m f t) →
      ∃ u r, m u = some (s, r) := by
  intro f
  induction f with
  | zero => intro t s hs; simp [scanWithF, scanMatches] at hs
  | succ n ih =>
    intro t s hs
    match t with
    | [] => simp [scanWithF, scanMatches] at hs
    | c :: t' =>
      have hstep : scanWithF m (n + 1) (c :: t')
          = match m (c :: t') with
            | some (s, r) => Sum.inr s :: scanWithF m n r
            | none => Sum.inl c :: scanWithF m n t' := rfl
      match hmt : m (c :: t') with
      | some (s', r) =>
        rw [hstep, hmt] at hs
        simp only [scanMatches, List.filterMap_cons] at hs
        rcases List.mem_cons.mp hs with h | h
        · exact ⟨c :: t', r, h ▸ hmt⟩
        · exact ih r s h
      | none =>
        rw [hstep, hmt] at hs
        simp only [scanMatches, List.filterMap_cons] at hs
        exact ih t' s hs

end ScanLemmas

theorem scanMatches_cons_inl (c : Char) (ps : List (Char ⊕ List Char)) :
    scanMatches (Sum.inl c :: ps) = scanMatches ps := by
  simp [scanMatches, List.filterMap_cons]

theorem scanMatches_cons_inr (s : List Char) (ps : List (Char ⊕ List Char)) :
    scanMatches (Sum.inr s :: ps) = s :: scanMatches ps := by
  simp [scanMatches, List.filterMap_cons]

theorem scanSegs_cons_inl {ps : List (Char ⊕ List Char)} {s : List Char}
    {ss : List (List Char)} (c : Char) (hs : scanSegs ps = s :: ss) :
    scanSegs (Sum.inl c :: ps) = (c :: s) :: ss := by
  rw [scanSegs, hs]

theorem scanSegs_cons_inr (s : List Char) (ps : List (Char ⊕ List Char)) :
    scanSegs (Sum.inr s :: ps) = [] :: scanSegs ps := rfl

theorem reassemble_cons_inl (c : Char) (ps : List (Char ⊕ List Char)) :
    reassemble (Sum.inl c :: ps) = c :: reassemble ps := by
  simp [reassemble, pieceOrig]

theorem reassemble_cons_inr (s : List Char) (ps : List (Char ⊕ List Char)) :
    reassemble (Sum.inr s :: ps) = s ++ reassemble ps := by
  simp [reassemble, pieceOrig]

/-- The unmatched segments always number one more than the matches. -/
theorem scanSegs_length : ∀ ps : List (Char ⊕ List Char),
    (scanSegs ps).length = (scanMatches ps).length + 1
  | [] => rfl
  | Sum.inl c :: ps => by
    have h := scanSegs_length ps
    match hs : scanSegs ps with
    | s :: ss =>
      rw [scanSegs_cons_inl c hs, scanMatches_cons_inl]
      rw [hs] at h
      simpa using h
    | [] => rw [hs] at h; simp at h
  | Sum.inr s :: ps => by
    have h := scanSegs_length ps
    rw [scanSegs_cons_inr, scanMatches_cons_inr]
    simpa using h

/-- Interleaving the unmatched segments with the matches reassembles the
scanned text. -/
theorem interleaveJoin_scan : ∀ ps : List (Char ⊕ List Char),
    interleaveJoin (scanSegs ps) (scanMatches ps) = reassemble ps
  | [] => rfl
  | Sum.inl c :: ps => by
    have h := interleaveJoin_scan ps
    have hlen := scanSegs_length ps
    match hs : scanSegs ps with
    | s :: ss =>
      rw [hs] at h
      rw [scanSegs_cons_inl c hs, scanMatches_cons_inl, reassemble_cons_inl]
      match hmt : scanMatches ps with
      | [] =>
        rw [hmt] at h
        rw [show interleaveJoin (s :: ss) [] = s from rfl] at h
        rw [show interleaveJoin ((c :: s) :: ss) [] = c :: s from rfl, h]
      | mh :: mt =>
        rw [hmt] at h
        rw [show interleaveJoin (s :: ss) (mh :: mt) = s ++ mh ++ interleaveJoin ss mt
          from rfl] at h
        rw [show interleaveJoin ((c :: s) :: ss) (mh :: mt)
          = (c :: s) ++ mh ++ interleaveJoin ss mt from rfl, ← h]
        simp
    | [] => rw [hs] at hlen; simp at hlen
  | Sum.inr s :: ps => by
    have h := interleaveJoin_scan ps
    rw [scanSegs_cons_inr, scanMatches_cons_inr, reassemble_cons_inr]
    rw [show interleaveJoin ([] :: scanSegs ps) (s :: scanMatches ps)
      = [] ++ s ++ interleaveJoin (scanSegs ps) (scanMatches ps) from rfl, h]
    simp

/-- Concatenating the unmatched segments yields the deletion output. -/
theorem flatten_scanSegs : ∀ ps : List (Char ⊕ List Char),
    (scanSegs ps).flatten = (ps.map (pieceOut false)).flatten
  | [] => rfl
  | Sum.inl c :: ps => by
    have h := flatten_scanSegs ps
    have hlen := scanSegs_length ps
    match hs : scanSegs ps with
    | s :: ss =>
      rw [hs] at h
      rw [scanSegs_cons_inl c hs, List.map_cons]
      rw [show pieceOut false (Sum.inl c) = [c] from rfl]
      simp only [List.flatten_cons] at h ⊢
      rw [← h]
      simp
    | [] => rw [hs] at hlen; simp at hlen
  | Sum.inr s :: ps => by
    have h := flatten_scanSegs ps
    rw [scanSegs_cons_inr, List.map_cons]
    rw [show pieceOut false (Sum.inr s) = [] from rfl]
    simp only [List.flatten_cons, List.nil_append]
    exact h

/-! ### Pass-through and shape lemmas -/

theorem flatten_pieceOut_inl (keep : Bool) : ∀ t : List Char,
    ((t.map Sum.inl).map (pieceOut keep)).flatten = t
  | [] => rfl
  | c :: t' => by
    simp only [List.map_cons, List.flatten_cons]
    rw [show pieceOut keep (Sum.inl c : Char ⊕ List Char) = [c] from rfl,
      flatten_pieceOut_inl keep t']
    rfl

theorem scanMatches_map_inl : ∀ t : List Char, scanMatches (t.map Sum.inl) = []
  | [] => rfl
  | c :: t' => by
    rw [List.map_cons, scanMatches_cons_inl, scanMatches_map_inl t']

/-- A text whose two scans are purely literal normalizes to itself with no
warnings, whatever the capabilities. -/
theorem normalizeText_all_lit (caps : TerminalCapabilities) (t : List Char)
    (hdec : decScan t = t.map Sum.inl) (hosc : oscScan t = t.map Sum.inl) :
    normalizeText caps t = (t, []) := by
  simp only [normalizeText, subAndWarns, hdec, flatten_pieceOut_inl, scanMatches_map_inl, hosc]
  simp

theorem decMatchAt_none_head {c : Char} (h : c ≠ ESC) :
    ∀ u : List Char, decMatchAt (c :: u) = none
  | [] => rfl
  | [_] => rfl
  | _ :: _ :: _ => by
    simp only [decMatchAt]
    rw [if_neg (fun hc => h hc.1)]

theorem oscMatchAt_none_head {c : Char} (h : c ≠ ESC) :
    ∀ u : List Char, oscMatchAt (c :: u) = none
  | [] => rfl
  | _ :: _ => by
    simp only [oscMatchAt]
    rw [if_neg (fun hc => h hc.1)]

theorem decMatchAt_none_bracket {br : Char} (h : br ≠ '[') :
    ∀ (e : Char) (u : List Char), decMatchAt (e :: br :: u) = none
  | _, [] => rfl
  | e, _ :: _ => by
    simp only [decMatchAt]
    rw [if_neg (fun hc => h hc.2.1)]

theorem oscMatchAt_none_bracket {br : Char} (h : br ≠ ']') (e : Char) (u : List Char) :
    oscMatchAt (e :: br :: u) = none := by
  simp only [oscMatchAt]
  rw [if_neg (fun hc => h hc.2)]

theorem oscMatchAt_none_of_body {u : List Char} (h : oscBody u = none) (e br : Char) :
    oscMatchAt (e :: br :: u) = none := by
  simp only [oscMatchAt]
  by_cases hc : e = ESC ∧ br = ']'
  · rw [if_pos hc, h]
  · rw [if_neg hc]

/-- A body with neither ESC nor BEL has no terminator. -/
theorem oscBody_none_clean : ∀ b : List Char, (∀ c ∈ b, c ≠ ESC ∧ c ≠ BEL) →
    oscBody b = none
  | [], _ => rfl
  | [c], h => by
    unfold oscBody
    rw [if_neg (h c (by simp)).2]
  | c :: d :: rest2, h => by
    unfold oscBody
    rw [if_neg (h c (by simp)).2, if_neg (fun hand => (h c (by simp)).1 hand.1),
      oscBody_none_clean (d :: rest2) (fun x hx => h x (by simp [hx]))]

/-- A clean body followed by a BEL terminator is consumed in full. -/
theorem oscBody_clean_term : ∀ b : List Char, (∀ c ∈ b, c ≠ ESC ∧ c ≠ BEL) →
    oscBody (b ++ [BEL]) = some (b ++ [BEL], [])
  | [], _ => by simp [oscBody]
  | c :: b', h => by
    have hc := h c (by simp)
    have hrec := oscBody_clean_term b' (fun x hx => h x (by simp [hx]))
    cases b' with
    | nil =>
      show oscBody [c, BEL] = some ([c, BEL], [])
      simp only [oscBody]
      rw [if_neg hc.2, if_neg (fun hand => hc.1 hand.1)]
      simp
    | cons e b'' =>
      show oscBody (c :: e :: (b'' ++ [BEL])) = some (c :: e :: (b'' ++ [BEL]), [])
      simp only [oscBody]
      rw [if_neg hc.2, if_neg (fun hand => hc.1 hand.1),
        show oscBody (e :: (b'' ++ [BEL])) = some (e :: (b'' ++ [BEL]), []) from hrec]

/-- Text without ESC scans purely literal for DEC matches. -/
theorem decScan_noESC (t : List Char) (h : ∀ c ∈ t, c ≠ ESC) :
    decScan t = t.map Sum.inl :=
  scanWithF_all_lit_of_head_none (fun _ u hc => decMatchAt_none_head hc u) t.length t le_rfl h

/-- Text without ESC scans purely literal for OSC matches. -/
theorem oscScan_noESC (t : List Char) (h : ∀ c ∈ t, c ≠ ESC) :
    oscScan t = t.map Sum.inl :=
  scanWithF_all_lit_of_head_none (fun _ u hc => oscMatchAt_none_head hc u) t.length t le_rfl h

/-- Text without ESC passes through the normalizer unchanged and unwarned. -/
theorem normalizeText_noESC (caps : TerminalCapabilities) (t : List Char)
    (h : ∀ c ∈ t, c ≠ ESC) : normalizeText caps t = (t, []) :=
  normalizeText_all_lit caps t (decScan_noESC t h) (oscScan_noESC t h)

/-- The shape of a DEC-private match: `ESC [ ? params (h|l)`. -/
theorem decMatchAt_shape {t s r : List Char} (h : decMatchAt t = some (s, r)) :
    ∃ ps f, s = ESC :: '[' :: '?' :: (ps ++ [f])
      ∧ (∀ c ∈ ps, decParamChar c) ∧ (f = 'h' ∨ f = 'l') := by
  unfold decMatchAt at h
  split at h
  next e br q rest =>
    split at h
    next hc =>
      obtain ⟨he, hbr, hq⟩ := hc
      split at h
      next f rest2 hd =>
        split at h
        next hf =>
          rw [Option.some_inj] at h
          have hs : s = e :: br :: q :: (rest.takeWhile decParamChar ++ [f]) :=
            (congrArg Prod.fst h).symm
          subst hs; subst he; subst hbr; subst hq
          exact ⟨rest.takeWhile decParamChar, f, rfl,
            fun c hc => List.mem_takeWhile_imp hc, hf⟩
        next => exact absurd h (by simp)
      next => exact absurd h (by simp)
    next => exact absurd h (by simp)
  next => exact absurd h (by simp)

/-- The shape of an OSC match: `ESC ] body` with a BEL or `ESC \` tail. -/
theorem oscMatchAt_shape {t s r : List Char} (h : oscMatchAt t = some (s, r)) :
    ∃ body pre, s = ESC :: ']' :: body
      ∧ (body = pre ++ [BEL] ∨ body = pre ++ [ESC, '\\']) := by
  unfold oscMatchAt at h
  split at h
  next e br rest =>
    split at h
    next hc =>
      obtain ⟨he, hbr⟩ := hc
      split at h
      next body r' hrec =>
        rw [Option.some_inj] at h
        have hs : s = e :: br :: body := (congrArg Prod.fst h).symm
        subst hs; subst he; subst hbr
        obtain ⟨_, pre, hterm⟩ := oscBody_spec hrec
        exact ⟨body, pre, rfl, hterm⟩
      next => exact absurd h (by simp)
    next => exact absurd h (by simp)
  next => exact absurd h (by simp)

/-- C5: on a chunk free of DEC-private and OSC occurrences, `normalize`
returns exactly the lossy UTF-8 decoding of the chunk and no warnings,
regardless of the capabilities. -/
theorem c5_normalize_identity (caps : TerminalCapabilities) (x : List Nat)
    (hdec : decOccs (utf8DecodeLossy x) = [])
    (hosc : oscOccs (utf8DecodeLossy x) = []) :
    normalize caps x = (utf8DecodeLossy x, []) := by
  simp only [decOccs, decScan] at hdec
  simp only [oscOccs, oscScan] at hosc
  have h1 : decScan (utf8DecodeLossy x) = (utf8DecodeLossy x).map Sum.inl :=
    scanWithF_all_lit_of_matches_nil _ _ le_rfl hdec
  have h2 : oscScan (utf8DecodeLossy x) = (utf8DecodeLossy x).map Sum.inl :=
    scanWithF_all_lit_of_matches_nil _ _ le_rfl hosc
  exact normalizeText_all_lit caps _ h1 h2

/-- C5 witness: the plain chunk `b"Hello"` with DEC private mode enabled. -/
theorem c5_normalize_identity_witness :
    normalize ⟨true, false⟩ [72, 101, 108, 108, 111] = (chars "Hello", []) := by
  have h := c5_normalize_identity ⟨true, false⟩ [72, 101, 108, 108, 111]
    (by decide) (by decide)
  exact h.trans (by decide)

/-- C4: with both capabilities false, `normalize` outputs the decoded text
with first the DEC-private matches deleted and then the OSC matches of that
intermediate text deleted; it emits exactly one warning per DEC-private match
of the decoded text (kind `dec-private`) followed by one per OSC match of the
DEC-stripped text (kind `osc-suppressed`), each quoting the matched sequence;
all characters outside the matches pass through unchanged, as the interleave
decompositions state; and every match has the documented sequence shape. -/
theorem c4_normalize_suppression (chunk : List Nat) :
    (normalize ⟨false, false⟩ chunk).1 = oscDelete (decDelete (utf8DecodeLossy chunk))
  ∧ (normalize ⟨false, false⟩ chunk).2
      = (decOccs (utf8DecodeLossy chunk)).map mkDecWarning
        ++ (oscOccs (decDelete (utf8DecodeLossy chunk))).map mkOscWarning
  ∧ interleaveJoin (scanSegs (decScan (utf8DecodeLossy chunk)))
      (decOccs (utf8DecodeLossy chunk)) = utf8DecodeLossy chunk
  ∧ (scanSegs (decScan (utf8DecodeLossy chunk))).flatten
      = decDelete (utf8DecodeLossy chunk)
  ∧ interleaveJoin (scanSegs (oscScan (decDelete (utf8DecodeLossy chunk))))
      (oscOccs (decDelete (utf8DecodeLossy chunk))) = decDelete (utf8DecodeLossy chunk)
  ∧ (scanSegs (oscScan (decDelete (utf8DecodeLossy chunk)))).flatten
      = oscDelete (decDelete (utf8DecodeLossy chunk))
  ∧ (∀ s ∈ decOccs (utf8DecodeLossy chunk), ∃ ps f, s = ESC :: '[' :: '?' :: (ps ++ [f])
        ∧ (∀ c ∈ ps, decParamChar c) ∧ (f = 'h' ∨ f = 'l'))
  ∧ (∀ s ∈ oscOccs (decDelete (utf8DecodeLossy chunk)), ∃ body pre,
        s = ESC :: ']' :: body ∧ (body = pre ++ [BEL] ∨ body = pre ++ [ESC, '\\'])) := by
  refine ⟨rfl, rfl, ?_, ?_, ?_, ?_, ?_, ?_⟩
  · exact (interleaveJoin_scan _).trans
      (scanWithF_reassemble (fun h => decMatchAt_spec h) _ _ le_rfl)
  · exact flatten_scanSegs _
  · exact (interleaveJoin_scan _).trans
      (scanWithF_reassemble (fun h => oscMatchAt_spec h) _ _ le_rfl)
  · exact flatten_scanSegs _
  · intro s hs
    obtain ⟨u, r, hm⟩ := scanWithF_matches_from_matcher _ _ s hs
    exact decMatchAt_shape hm
  · intro s hs
    obtain ⟨u, r, hm⟩ := scanWithF_matches_from_matcher _ _ s hs
    exact oscMatchAt_shape hm

/-- C4 witness: the chunk `b"\x1b[?25lA\x1b]x\x07"` holding one DEC-private
and one OSC sequence, and the chunk `b"\x1b[?\xd9\xa0h"` whose DEC-private
parameter is the Arabic-Indic digit U+0660 — a non-ASCII character that
Python's `\d` matches. -/
theorem c4_normalize_suppression_witness :
    (normalize ⟨false, false⟩ [27, 91, 63, 50, 53, 108, 65, 27, 93, 120, 7]).1 = ['A']
  ∧ (normalize ⟨false, false⟩ [27, 91, 63, 50, 53, 108, 65, 27, 93, 120, 7]).2
      = [⟨chars "dec-private", chars "\\u001b[?25l", some [], none⟩,
         ⟨chars "osc-suppressed", chars "\\u001b]x\\u0007", some [], none⟩]
  ∧ (∃ ps f, [ESC, '[', '?', '2', '5', 'l'] = ESC :: '[' :: '?' :: (ps ++ [f])
        ∧ (∀ c ∈ ps, decParamChar c) ∧ (f = 'h' ∨ f = 'l'))
  ∧ (normalize ⟨false, false⟩ [27, 91, 63, 217, 160, 104]).1 = []
  ∧ (normalize ⟨false, false⟩ [27, 91, 63, 217, 160, 104]).2
      = [⟨chars "dec-private", chars "\\u001b[?\\u0660h", some [], none⟩] := by
  have h := c4_normalize_suppression [27, 91, 63, 50, 53, 108, 65, 27, 93, 120, 7]
  have hu := c4_normalize_suppression [27, 91, 63, 217, 160, 104]
  refine ⟨h.1.trans (by decide), h.2.1.trans (by decide), ?_,
    hu.1.trans (by decide), hu.2.1.trans (by decide)⟩
  exact h.2.2.2.2.2.2.1 [ESC, '[', '?', '2', '5', 'l'] (by decide)

/-- C4 counterexample: on the chunk `b"\x1b]A\x1b\x1b[?1h\\"` the normalizer
emits one `osc-suppressed` warning although the decoded input contains no OSC
occurrence at all — deleting the DEC-private sequence glues the trailing
backslash to the preceding ESC, creating the `ESC \` terminator that
completes an OSC match only in the stripped text.  So the warnings are not
one per occurrence in the input. -/
theorem c4_counterexample :
    ((normalize ⟨false, false⟩ [27, 93, 65, 27, 27, 91, 63, 49, 104, 92]).2.filter
        (fun w => w.kind == chars "osc-suppressed")).length = 1
  ∧ oscOccs (utf8DecodeLossy [27, 93, 65, 27, 27, 91, 63, 49, 104, 92]) = [] := by
  decide

/-- Unfolding equation for one scan step. -/
theorem scanWithF_cons (m : List Char → Option (List Char × List Char)) (f : Nat)
    (c : Char) (t : List Char) :
    scanWithF m (f + 1) (c :: t)
      = match m (c :: t) with
        | some (s, r) => Sum.inr s :: scanWithF m f r
        | none => Sum.inl c :: scanWithF m f t := rfl

/-- DEC parameter characters are never ESC. -/
theorem decParamChar_ne_ESC : ∀ c : Char, decParamChar c = true → c ≠ ESC := by
  intro c hc heq
  subst heq
  exact absurd hc (by decide)

/-- Unfolding equation for one chunk step of the parse loop. -/
theorem parseGo_cons {σ : Type} (caps : TerminalCapabilities) (feed : σ → List Char → σ)
    (snap : σ → SnapInfo) (raw : List Nat) (rest : List (List Nat)) (screen : σ)
    (counter : Nat) (states : List ScreenState) (ws : List WarningEntry)
    {nt : List Char} {nws : List ParseWarning} (hn : normalize caps raw = (nt, nws)) :
    parseGo caps feed snap (raw :: rest) screen counter states ws
      = if nt = [] then
          parseGo caps feed snap rest screen (counter + raw.length) states
            (ws ++ nws.map (fun w => ⟨counter, w⟩))
        else
          parseGo caps feed snap rest (feed screen nt) (counter + raw.length)
            (states ++ [mkState (snap (feed screen nt)) (counter + raw.length)])
            (ws ++ nws.map (fun w => ⟨counter, w⟩)) := by
  simp only [parseGo, hn]

/-- C10: an incomplete DEC-private or OSC sequence — one whose terminator is
not inside the same chunk — passes through `normalize` byte-for-byte with no
warning, and since `parse` normalizes each chunk independently, a control
sequence split across a chunk boundary reaches the VT engine unsuppressed and
unwarned even with all capabilities false, although the concatenation of the
two chunks matches the OSC pattern in full. -/
theorem c10_incomplete_sequences {σ : Type} (feed : σ → List Char → σ) (init : σ)
    (snap : σ → SnapInfo) (m1 m2 : List Char) (c1 c2 : List Nat)
    (h1 : ∀ c ∈ m1, c ≠ ESC ∧ c ≠ BEL) (h2 : ∀ c ∈ m2, c ≠ ESC ∧ c ≠ BEL)
    (hd1 : utf8DecodeLossy c1 = ESC :: ']' :: m1)
    (hd2 : utf8DecodeLossy c2 = m2 ++ [BEL]) :
    normalizeText ⟨false, false⟩ (ESC :: ']' :: m1) = (ESC :: ']' :: m1, [])
  ∧ (∀ ps : List Char, (∀ c ∈ ps, decParamChar c = true) →
      normalizeText ⟨false, false⟩ (ESC :: '[' :: '?' :: ps)
        = (ESC :: '[' :: '?' :: ps, []))
  ∧ (parseChunks ⟨false, false⟩ feed init snap [c1, c2]).1.warnings = []
  ∧ (parseChunks ⟨false, false⟩ feed init snap [c1, c2]).2
      = feed (feed init (ESC :: ']' :: m1)) (m2 ++ [BEL])
  ∧ oscOccs (utf8DecodeLossy c1 ++ utf8DecodeLossy c2)
      = [ESC :: ']' :: (m1 ++ m2 ++ [BEL])] := by
  have hm1noESC : ∀ c ∈ (']' : Char) :: m1, c ≠ ESC := by
    intro c hc
    rcases List.mem_cons.mp hc with h | h
    · subst h; decide
    · exact (h1 c h).1
  have hdecScan1 : decScan (ESC :: ']' :: m1) = (ESC :: ']' :: m1).map Sum.inl := by
    show scanWithF decMatchAt (ESC :: ']' :: m1).length (ESC :: ']' :: m1) = _
    simp only [List.length_cons]
    rw [scanWithF_cons, decMatchAt_none_bracket (by decide) ESC m1,
      scanWithF_all_lit_of_head_none (fun _ u hc => decMatchAt_none_head hc u)
        (m1.length + 1) (']' :: m1) (by simp) hm1noESC]
    simp
  have hoscScan1 : oscScan (ESC :: ']' :: m1) = (ESC :: ']' :: m1).map Sum.inl := by
    show scanWithF oscMatchAt (ESC :: ']' :: m1).length (ESC :: ']' :: m1) = _
    simp only [List.length_cons]
    rw [scanWithF_cons, oscMatchAt_none_of_body (oscBody_none_clean m1 h1) ESC ']',
      scanWithF_all_lit_of_head_none (fun _ u hc => oscMatchAt_none_head hc u)
        (m1.length + 1) (']' :: m1) (by simp) hm1noESC]
    simp
  have hpass1 : normalizeText ⟨false, false⟩ (ESC :: ']' :: m1) = (ESC :: ']' :: m1, []) :=
    normalizeText_all_lit _ _ hdecScan1 hoscScan1
  have hpass2 : ∀ ps : List Char, (∀ c ∈ ps, decParamChar c = true) →
      normalizeText ⟨false, false⟩ (ESC :: '[' :: '?' :: ps)
        = (ESC :: '[' :: '?' :: ps, []) := by
    intro ps hps
    have hpsNoESC : ∀ c ∈ ('[' : Char) :: '?' :: ps, c ≠ ESC := by
      intro c hc
      rcases List.mem_cons.mp hc with h | h
      · subst h; decide
      rcases List.mem_cons.mp h with h | h
      · subst h; decide
      · exact decParamChar_ne_ESC c (hps c h)
    have hmatch : decMatchAt (ESC :: '[' :: '?' :: ps) = none := by
      simp only [decMatchAt]
      rw [if_pos (by simp),
        show ps.dropWhile decParamChar = [] from List.dropWhile_eq_nil_iff.mpr hps]
    have hdec2 : decScan (ESC :: '[' :: '?' :: ps)
        = (ESC :: '[' :: '?' :: ps).map Sum.inl := by
      show scanWithF decMatchAt (ESC :: '[' :: '?' :: ps).length _ = _
      simp only [List.length_cons]
      rw [scanWithF_cons, hmatch,
        scanWithF_all_lit_of_head_none (fun _ u hc => decMatchAt_none_head hc u)
          (ps.length + 1 + 1) ('[' :: '?' :: ps) (by simp) hpsNoESC]
      simp
    have hosc2 : oscScan (ESC :: '[' :: '?' :: ps)
        = (ESC :: '[' :: '?' :: ps).map Sum.inl := by
      show scanWithF oscMatchAt (ESC :: '[' :: '?' :: ps).length _ = _
      simp only [List.length_cons]
      rw [scanWithF_cons, oscMatchAt_none_bracket (by decide) ESC ('?' :: ps),
        scanWithF_all_lit_of_head_none (fun _ u hc => oscMatchAt_none_head hc u)
          (ps.length + 1 + 1) ('[' :: '?' :: ps) (by simp) hpsNoESC]
      simp
    exact normalizeText_all_lit _ _ hdec2 hosc2
  have hn1 : normalize ⟨false, false⟩ c1 = (ESC :: ']' :: m1, []) := by
    unfold normalize
    rw [hd1]
    exact hpass1
  have hn2 : normalize ⟨false, false⟩ c2 = (m2 ++ [BEL], []) := by
    unfold normalize
    rw [hd2]
    refine normalizeText_noESC _ _ ?_
    intro c hc
    rcases List.mem_append.mp hc with h | h
    · exact (h2 c h).1
    · rw [List.mem_singleton.mp h]; decide
  have hrun : parseChunks ⟨false, false⟩ feed init snap [c1, c2]
      = (⟨[mkState (snap (feed init (ESC :: ']' :: m1))) c1.length,
           mkState (snap (feed (feed init (ESC :: ']' :: m1)) (m2 ++ [BEL])))
             (c1.length + c2.length)], []⟩,
         feed (feed init (ESC :: ']' :: m1)) (m2 ++ [BEL])) := by
    show parseGo ⟨false, false⟩ feed snap [c1, c2] init 0 [] [] = _
    rw [parseGo_cons _ _ _ _ _ _ _ _ _ hn1, if_neg (by simp)]
    rw [parseGo_cons _ _ _ _ _ _ _ _ _ hn2, if_neg (by simp)]
    simp [parseGo]
  refine ⟨hpass1, hpass2, ?_, ?_, ?_⟩
  · rw [hrun]
  · rw [hrun]
  · rw [hd1, hd2]
    have hclean : ∀ c ∈ m1 ++ m2, c ≠ ESC ∧ c ≠ BEL := by
      intro c hc
      rcases List.mem_append.mp hc with h | h
      · exact h1 c h
      · exact h2 c h
    have hmatch : oscMatchAt (ESC :: ']' :: ((m1 ++ m2) ++ [BEL]))
        = some (ESC :: ']' :: ((m1 ++ m2) ++ [BEL]), []) := by
      simp only [oscMatchAt]
      rw [if_pos (by simp), oscBody_clean_term (m1 ++ m2) hclean]
    have hshape : ESC :: ']' :: m1 ++ (m2 ++ [BEL])
        = ESC :: ']' :: ((m1 ++ m2) ++ [BEL]) := by
      simp [List.append_assoc]
    rw [hshape]
    show scanMatches (scanWithF oscMatchAt
      (ESC :: ']' :: ((m1 ++ m2) ++ [BEL])).length _) = _
    simp only [List.length_cons]
    rw [scanWithF_cons, hmatch]
    simp [scanMatches, scanWithF_nil, List.append_assoc]

/-- C10 witness: `b"\x1b]8;;x"` then `b"y\x07"` — an OSC hyperlink split
across the chunk boundary is fed through verbatim. -/
theorem c10_incomplete_sequences_witness :
    (parseChunks ⟨false, false⟩ (fun (s : List (List Char)) (t : List Char) => s ++ [t]) []
        (fun _ => ⟨0, 0, []⟩) [[27, 93, 56, 59, 59, 120], [121, 7]]).1.warnings = []
  ∧ (parseChunks ⟨false, false⟩ (fun (s : List (List Char)) (t : List Char) => s ++ [t]) []
        (fun _ => ⟨0, 0, []⟩) [[27, 93, 56, 59, 59, 120], [121, 7]]).2
      = [[ESC, ']', '8', ';', ';', 'x'], ['y', BEL]]
  ∧ oscOccs (utf8DecodeLossy [27, 93, 56, 59, 59, 120] ++ utf8DecodeLossy [121, 7])
      = [[ESC, ']', '8', ';', ';', 'x', 'y', BEL]] := by
  have h := c10_incomplete_sequences
    (fun (s : List (List Char)) (t : List Char) => s ++ [t]) []
    (fun _ => ⟨0, 0, []⟩) ['8', ';', ';', 'x'] ['y']
    [27, 93, 56, 59, 59, 120] [121, 7] (by decide) (by decide) (by decide) (by decide)
  exact ⟨h.2.2.1, h.2.2.2.1.trans (by decide), h.2.2.2.2.trans (by decide)⟩

/-! ### Keyframe correlation lemmas -/

/-- The `_locate_state` loop is the first-match search. -/
theorem locateLoop_eq_find (off : Nat) : ∀ states : List ScreenState,
    locateLoop off states = states.find? (fun s => decide (off ≤ s.offset))
  | [] => rfl
  | s :: rest => by
    by_cases h : off ≤ s.offset
    · rw [locateLoop, if_pos h, List.find?_cons_of_pos _ (by simpa using h)]
    · rw [locateLoop, if_neg h, List.find?_cons_of_neg _ (by simpa using h),
        locateLoop_eq_find off rest]

/-- `_locate_state` as first-match-or-last-state. -/
theorem locateState_eq (states : List ScreenState) (off : Nat) :
    locateState states off
      = Option.orElse (states.find? (fun s => decide (off ≤ s.offset)))
          (fun _ => states.getLast?) := by
  unfold locateState
  rw [locateLoop_eq_find]
  cases states.find? (fun s => decide (off ≤ s.offset)) <;> rfl

/-- On a non-empty state list, `_locate_state` always finds a candidate. -/
theorem locateState_of_ne_nil {states : List ScreenState} (h : states ≠ []) (off : Nat) :
    ∃ c, locateState states off = some c := by
  unfold locateState
  cases hl : locateLoop off states with
  | some s => exact ⟨s, rfl⟩
  | none =>
    cases hg : states.getLast? with
    | some s => exact ⟨s, rfl⟩
    | none => exact absurd (List.getLast?_eq_none_iff.mp hg) h

theorem dictGet_cons_self (k : List Char) (v : ScreenState)
    (m : List (List Char × ScreenState)) : dictGet ((k, v) :: m) k = some v := by
  unfold dictGet
  rw [List.find?_cons_of_pos _ (by simp)]
  rfl

theorem dictGet_cons_ne {k' k : List Char} (h : k' ≠ k) (v' : ScreenState)
    (m : List (List Char × ScreenState)) : dictGet ((k', v') :: m) k = dictGet m k := by
  unfold dictGet
  rw [List.find?_cons_of_neg _ (by simpa using h)]

theorem dictGet_insert_self : ∀ (m : List (List Char × ScreenState)) (k : List Char)
    (v : ScreenState), dictGet (dictInsert m k v) k = some v
  | [], k, v => dictGet_cons_self k v []
  | (k', v') :: rest, k, v => by
    by_cases h : k' = k
    · subst h
      rw [show dictInsert ((k', v') :: rest) k' v = (k', v) :: rest from by
        simp [dictInsert]]
      exact dictGet_cons_self k' v rest
    · rw [show dictInsert ((k', v') :: rest) k v = (k', v') :: dictInsert rest k v from by
        simp [dictInsert, h]]
      rw [dictGet_cons_ne h, dictGet_insert_self rest k v]

theorem dictGet_insert_ne : ∀ (m : List (List Char × ScreenState)) (k : List Char)
    (v : ScreenState) (l : List Char), l ≠ k →
    dictGet (dictInsert m k v) l = dictGet m l
  | [], k, v, l, h => by
    rw [show dictInsert [] k v = [(k, v)] from rfl, dictGet_cons_ne (Ne.symm h)]
  | (k', v') :: rest, k, v, l, h => by
    by_cases hk : k' = k
    · subst hk
      rw [show dictInsert ((k', v') :: rest) k' v = (k', v) :: rest from by
        simp [dictInsert]]
      rw [dictGet_cons_ne (Ne.symm h), dictGet_cons_ne (Ne.symm h)]
    · rw [show dictInsert ((k', v') :: rest) k v = (k', v') :: dictInsert rest k v from by
        simp [dictInsert, hk]]
      by_cases hl : k' = l
      · subst hl
        rw [dictGet_cons_self, dictGet_cons_self]
      · rw [dictGet_cons_ne hl, dictGet_cons_ne hl, dictGet_insert_ne rest k v l h]

/-- Folding the keyframes through the dict assignments: the label's value is
decided by the last keyframe carrying that label. -/
theorem extract_fold_get (states : List ScreenState) (h : states ≠ []) (lbl : List Char) :
    ∀ (kfs : List Keyframe) (m : List (List Char × ScreenState)),
      dictGet (kfs.foldl (fun m frame =>
          match locateState states frame.offset with
          | some c => dictInsert m frame.label c
          | none => m) m) lbl
        = match (kfs.filter (fun f => f.label == lbl)).getLast? with
          | some f => locateState states f.offset
          | none => dictGet m lbl
  | [], m => by simp
  | f :: rest, m => by
    obtain ⟨c, hc⟩ := locateState_of_ne_nil h f.offset
    simp only [List.foldl_cons]
    rw [show (match locateState states f.offset with
        | some c => dictInsert m f.label c
        | none => m) = dictInsert m f.label c from by rw [hc]]
    rw [extract_fold_get states h lbl rest (dictInsert m f.label c)]
    by_cases hlb : f.label = lbl
    · rw [List.filter_cons_of_pos (by simp [hlb])]
      cases hlast : (rest.filter (fun g => g.label == lbl)).getLast? with
      | none =>
        have hfil : rest.filter (fun g => g.label == lbl) = [] :=
          List.getLast?_eq_none_iff.mp hlast
        simp only [hfil, List.getLast?_singleton]
        rw [hlb, dictGet_insert_self, hc]
      | some g =>
        cases hfr : rest.filter (fun g => g.label == lbl) with
        | nil => rw [hfr] at hlast; simp at hlast
        | cons x xs =>
          simp only [hfr, List.getLast?_cons_cons]
          rw [hfr] at hlast
          simp only [hlast]
    · rw [List.filter_cons_of_neg (by simp [hlb])]
      cases hlast : (rest.filter (fun g => g.label == lbl)).getLast? with
      | none =>
        show dictGet (dictInsert m f.label c) lbl = dictGet m lbl
        exact dictGet_insert_ne m f.label c lbl (fun he => hlb he.symm)
      | some g => rfl

/-- C1: on an empty state list `extract_keyframes` is empty; on a non-empty
one it maps each label to the candidate of the last keyframe in input order
carrying that label — the first state (in sequence order) whose offset is at
or past the keyframe's offset, or the last state when none is. -/
theorem c1_extract_keyframes_correct (states : List ScreenState) (kfs : List Keyframe)
    (lbl : List Char) :
    extract_keyframes [] kfs = []
  ∧ (states ≠ [] →
      dictGet (extract_keyframes states kfs) lbl
        = ((kfs.filter (fun f => f.label == lbl)).getLast?).bind
            (fun f => Option.orElse (states.find? (fun s => decide (f.offset ≤ s.offset)))
              (fun _ => states.getLast?))) := by
  constructor
  · simp [extract_keyframes]
  · intro h
    unfold extract_keyframes
    rw [if_neg h, extract_fold_get states h lbl kfs []]
    cases hlast : (kfs.filter (fun f => f.label == lbl)).getLast? with
    | none => rfl
    | some f =>
      show locateState states f.offset = _
      rw [locateState_eq]
      rfl

/-- C1 witness: two states at offsets 5 and 11; label `a` marked twice (the
later mark at offset 7 wins and lands on the offset-11 state), label `b` past
every state falls back to the last state. -/
theorem c1_extract_keyframes_correct_witness :
    dictGet (extract_keyframes
        [⟨5, 0, 0, []⟩, ⟨11, 0, 0, []⟩]
        [⟨chars "a", 3, 0.0⟩, ⟨chars "b", 100, 0.0⟩, ⟨chars "a", 7, 0.0⟩])
      (chars "a") = some ⟨11, 0, 0, []⟩
  ∧ dictGet (extract_keyframes
        [⟨5, 0, 0, []⟩, ⟨11, 0, 0, []⟩]
        [⟨chars "a", 3, 0.0⟩, ⟨chars "b", 100, 0.0⟩, ⟨chars "a", 7, 0.0⟩])
      (chars "b") = some ⟨11, 0, 0, []⟩
  ∧ extract_keyframes []
      [⟨chars "a", 3, 0.0⟩, ⟨chars "b", 100, 0.0⟩, ⟨chars "a", 7, 0.0⟩] = [] := by
  have ha := c1_extract_keyframes_correct
    [⟨5, 0, 0, []⟩, ⟨11, 0, 0, []⟩]
    [⟨chars "a", 3, 0.0⟩, ⟨chars "b", 100, 0.0⟩, ⟨chars "a", 7, 0.0⟩] (chars "a")
  have hb := c1_extract_keyframes_correct
    [⟨5, 0, 0, []⟩, ⟨11, 0, 0, []⟩]
    [⟨chars "a", 3, 0.0⟩, ⟨chars "b", 100, 0.0⟩, ⟨chars "a", 7, 0.0⟩] (chars "b")
  refine ⟨(ha.2 (by simp)).trans ?_, (hb.2 (by simp)).trans ?_, hb.1⟩
  · rfl
  · rfl

/-! ### Replay parser offset lemmas -/

theorem sum_len_take_le (l : List (List Nat)) (k : Nat) :
    ((l.take k).map List.length).sum ≤ (l.map List.length).sum := by
  conv_rhs => rw [← List.take_append_drop k l]
  rw [List.map_append, List.sum_append]
  exact Nat.le_add_right _ _

theorem chunkifyF_flatten : ∀ (fuel csize : Nat) (l : List Nat),
    l.length ≤ fuel → 0 < csize → (chunkifyF fuel csize l).flatten = l
  | fuel, _, [], _, _ => by cases fuel <;> rfl
  | 0, _, b :: l, h, _ => by simp at h
  | fuel + 1, csize, b :: l, h, hcs => by
    have hlen : ((b :: l).drop csize).length ≤ fuel := by
      rw [List.length_drop]
      simp only [List.length_cons] at h ⊢
      omega
    rw [chunkifyF, List.flatten_cons, chunkifyF_flatten fuel csize _ hlen hcs,
      List.take_append_drop]

/-- The chunks of a file concatenate back to the file. -/
theorem chunkify_flatten (csize : Nat) (hcs : 0 < csize) (l : List Nat) :
    (chunkify csize l).flatten = l := by
  unfold chunkify
  rw [if_neg (Nat.pos_iff_ne_zero.mp hcs)]
  exact chunkifyF_flatten l.length csize l le_rfl hcs

/-- Shifting the offset closed form by one consumed chunk. -/
theorem offsets_tail_eq (caps : TerminalCapabilities) (raw : List Nat)
    (rest : List (List Nat)) (counter : Nat) :
    (((List.range rest.length).map Nat.succ).filter
        (fun i => !(normalize caps ((raw :: rest).getD i [])).1.isEmpty)).map
        (fun i => counter + (((raw :: rest).take (i + 1)).map List.length).sum)
      = ((List.range rest.length).filter
          (fun i => !(normalize caps (rest.getD i [])).1.isEmpty)).map
          (fun i => (counter + raw.length) + (((rest.take (i + 1)).map List.length).sum)) := by
  rw [List.filter_map, List.map_map]
  have h1 : (List.range rest.length).filter
      ((fun i => !(normalize caps ((raw :: rest).getD i [])).1.isEmpty) ∘ Nat.succ)
      = (List.range rest.length).filter
          (fun i => !(normalize caps (rest.getD i [])).1.isEmpty) := by
    apply List.filter_congr
    intro i _
    rfl
  rw [h1]
  apply List.map_congr_left
  intro i _
  simp only [Function.comp_apply, Nat.succ_eq_add_one, List.take_succ_cons, List.map_cons,
    List.sum_cons]
  omega

/-- Closed form of the parse loop's snapshot offsets: one offset per chunk
with non-empty normalized text, equal to the raw byte count consumed through
that chunk. -/
theorem parseGo_offsets {σ : Type} (caps : TerminalCapabilities) (feed : σ → List Char → σ)
    (snap : σ → SnapInfo) :
    ∀ (chunks : List (List Nat)) (screen : σ) (counter : Nat)
      (states : List ScreenState) (ws : List WarningEntry),
      ((parseGo caps feed snap chunks screen counter states ws).1.states).map
          ScreenState.offset
        = states.map ScreenState.offset
          ++ ((List.range chunks.length).filter
              (fun i => !(normalize caps (chunks.getD i [])).1.isEmpty)).map
              (fun i => counter + (((chunks.take (i + 1)).map List.length).sum))
  | [], screen, counter, states, ws => by simp [parseGo]
  | raw :: rest, screen, counter, states, ws => by
    cases hn : normalize caps raw with
    | mk nt nws =>
      rw [parseGo_cons _ _ _ _ _ _ _ _ _ hn]
      by_cases hne : nt = []
      · rw [if_pos hne]
        rw [parseGo_offsets caps feed snap rest screen (counter + raw.length) states _]
        congr 1
        rw [show (raw :: rest).length = rest.length + 1 from rfl, List.range_succ_eq_map]
        rw [List.filter_cons_of_neg (by simp [hn, hne])]
        rw [offsets_tail_eq]
      · rw [if_neg hne]
        rw [parseGo_offsets caps feed snap rest (feed screen nt) (counter + raw.length)
          (states ++ [mkState (snap (feed screen nt)) (counter + raw.length)]) _]
        rw [List.map_append, List.append_assoc]
        congr 1
        rw [show (raw :: rest).length = rest.length + 1 from rfl, List.range_succ_eq_map]
        rw [List.filter_cons_of_pos (by simp [hn, hne])]
        rw [show List.map ScreenState.offset
            [mkState (snap (feed screen nt)) (counter + raw.length)]
          = [counter + raw.length] from rfl]
        rw [List.map_cons, offsets_tail_eq, List.singleton_append]
        congr 1

/-- C2: the offsets of the states `parse` produces are exactly the cumulative
raw byte counts through each chunk whose normalized text is non-empty, in
chunk order; consequently they are monotonically non-decreasing; and the
chunks partition the file's bytes. -/
theorem c2_parse_offsets {σ : Type} (caps : TerminalCapabilities)
    (feed : σ → List Char → σ) (init : σ) (snap : σ → SnapInfo)
    (file : List Nat) (csize : Nat) (hcs : 0 < csize) :
    ((parse caps feed init snap file csize).1.states.map ScreenState.offset
        = ((List.range (chunkify csize file).length).filter
            (fun i => !(normalize caps ((chunkify csize file).getD i [])).1.isEmpty)).map
            (fun i => (((chunkify csize file).take (i + 1)).map List.length).sum))
  ∧ List.Chain' (· ≤ ·)
      ((parse caps feed init snap file csize).1.states.map ScreenState.offset)
  ∧ (chunkify csize file).flatten = file := by
  have hoff : (parse caps feed init snap file csize).1.states.map ScreenState.offset
      = ((List.range (chunkify csize file).length).filter
          (fun i => !(normalize caps ((chunkify csize file).getD i [])).1.isEmpty)).map
          (fun i => (((chunkify csize file).take (i + 1)).map List.length).sum) := by
    rw [show (parse caps feed init snap file csize).1
        = (parseGo caps feed snap (chunkify csize file) init 0 [] []).1 from rfl]
    rw [parseGo_offsets]
    simp only [List.map_nil, List.nil_append]
    apply List.map_congr_left
    intro i _
    simp
  refine ⟨hoff, ?_, chunkify_flatten csize hcs file⟩
  rw [hoff]
  have hpw : ((List.range (chunkify csize file).length).filter
      (fun i => !(normalize caps ((chunkify csize file).getD i [])).1.isEmpty)).Pairwise
        (· < ·) :=
    (List.pairwise_lt_range _).filter _
  refine (hpw.map _ ?_).chain'
  intro i j hij
  have hmin : (chunkify csize file).take (i + 1)
      = ((chunkify csize file).take (j + 1)).take (i + 1) := by
    rw [List.take_take]
    congr 1
    omega
  rw [hmin]
  exact sum_len_take_le _ _

/-- C2 witness: the two-byte file `b"Hi"` read with chunk size 1 yields
states at offsets 1 and 2. -/
theorem c2_parse_offsets_witness :
    ((parse ⟨false, false⟩ (fun (_ : Unit) _ => ()) () (fun _ => ⟨0, 0, []⟩)
        [72, 105] 1).1.states.map ScreenState.offset = [1, 2])
  ∧ (chunkify 1 [72, 105]).flatten = [72, 105] := by
  have h := c2_parse_offsets ⟨false, false⟩ (fun (_ : Unit) _ => ()) ()
    (fun _ => ⟨0, 0, []⟩) [72, 105] 1 (by decide)
  exact ⟨h.1.trans (by decide), h.2.2⟩

/-! ### Wait-loop lemmas -/

/-- The wait loop decides at the first observation where the predicate holds
or the deadline has passed. -/
theorem waitUntilTrace_eq_find (p : List Char → Bool) :
    ∀ tr : List (List Char × Int),
      waitUntilTrace p tr
        = (tr.find? (fun e => p e.1 || decide (e.2 ≤ 0))).map (fun e => p e.1)
  | [] => rfl
  | (buf, rem) :: rest => by
    by_cases hp : p buf
    · rw [waitUntilTrace, if_pos hp, List.find?_cons_of_pos _ (by simp [hp])]
      simp [hp]
    · by_cases hr : rem ≤ 0
      · rw [waitUntilTrace, if_neg hp, if_pos hr, List.find?_cons_of_pos _ (by simp [hr])]
        simp [hp]
      · rw [waitUntilTrace, if_neg hp, if_neg hr,
          List.find?_cons_of_neg _ (by simp [hp, hr]), waitUntilTrace_eq_find p rest]

/-- When every observation shows the same buffer and the deadline eventually
expires, the wait loop returns the predicate's value on that buffer. -/
theorem waitUntilTrace_const (p : List Char → Bool) (b : List Char) :
    ∀ tr : List (List Char × Int), (∀ e ∈ tr, e.1 = b) →
      (∃ e ∈ tr, e.2 ≤ 0) → waitUntilTrace p tr = some (p b)
  | [], _, hd => by
    rcases hd with ⟨e, he, _⟩
    exact absurd he (List.not_mem_nil e)
  | (buf, rem) :: rest, hall, hd => by
    have hb : buf = b := hall (buf, rem) (by simp)
    subst hb
    rw [waitUntilTrace]
    by_cases hp : p buf
    · rw [if_pos hp, hp]
    · rw [if_neg hp]
      by_cases hr : rem ≤ 0
      · rw [if_pos hr]
        simp [Bool.not_eq_true] at hp
        rw [hp]
      · rw [if_neg hr]
        apply waitUntilTrace_const p buf rest (fun e he => hall e (by simp [he]))
        rcases hd with ⟨e, he, he2⟩
        rcases List.mem_cons.mp he with h | h
        · exact absurd (by rw [h] at he2; simpa using he2) hr
        · exact ⟨e, h, he2⟩

/-- C6: the wait loop returns true exactly when its first decisive
observation satisfies the predicate (where an observation is decisive when
the predicate holds or the remaining time is spent); it never returns true
without the predicate having held at an observed buffer; and when the buffer
never changes it returns the predicate's value on that buffer — immediately
when true, at deadline expiry when false. -/
theorem c6_wait_until (p : List Char → Bool) (tr : List (List Char × Int))
    (b : List Char) :
    (waitUntilTrace p tr
        = (tr.find? (fun e => p e.1 || decide (e.2 ≤ 0))).map (fun e => p e.1))
  ∧ (waitUntilTrace p tr = some true → ∃ e ∈ tr, p e.1 = true)
  ∧ ((∀ e ∈ tr, e.1 = b) → (∃ e ∈ tr, e.2 ≤ 0) → waitUntilTrace p tr = some (p b))
  ∧ (tr ≠ [] → (∀ e ∈ tr, e.1 = b) → p b = true → waitUntilTrace p tr = some true) := by
  refine ⟨waitUntilTrace_eq_find p tr, ?_, waitUntilTrace_const p b tr, ?_⟩
  · intro h
    rw [waitUntilTrace_eq_find] at h
    cases hf : tr.find? (fun e => p e.1 || decide (e.2 ≤ 0)) with
    | none => rw [hf] at h; simp at h
    | some e =>
      rw [hf] at h
      exact ⟨e, List.mem_of_find?_eq_some hf, by simpa using h⟩
  · intro hne hall hp
    cases tr with
    | nil => exact absurd rfl hne
    | cons e rest =>
      obtain ⟨buf, rem⟩ := e
      have hb : buf = b := hall (buf, rem) (by simp)
      rw [waitUntilTrace, if_pos (by rw [hb]; exact hp)]

/-- C6 witness: the predicate fires at the second observation of one trace
and never on a constant-buffer trace that reaches its deadline. -/
theorem c6_wait_until_witness :
    waitUntilTrace (fun t => t == chars "ok") [(chars "no", 5), (chars "ok", 3)] = some true
  ∧ waitUntilTrace (fun t => t == chars "ok") [(chars "no", 5), (chars "no", 0)]
      = some false := by
  have h1 := c6_wait_until (fun t => t == chars "ok")
    [(chars "no", 5), (chars "ok", 3)] (chars "no")
  have h2 := c6_wait_until (fun t => t == chars "ok")
    [(chars "no", 5), (chars "no", 0)] (chars "no")
  refine ⟨h1.1.trans (by decide), ?_⟩
  exact (h2.2.2.1 (by decide) ⟨(chars "no", 0), by decide, by decide⟩).trans (by decide)

/-! ### Driver failure payloads and output conditions -/

/-- C8 counterexample: with a buffer of 150 two-byte characters (cent signs)
the failure message embeds the full 150-character tail, whose UTF-8 encoding
is 300 bytes — more than 200 — so the payload does not carry "the last at
most 200 bytes" of anything. -/
theorem c8_counterexample :
    inputStepTimeoutMsg [] (List.replicate 150 (Char.ofNat 162))
      = chars "Condition not met for input step. Expectation: "
        ++ chars ", buffer tail: " ++ List.replicate 150 (Char.ofNat 162)
  ∧ utf8Length (tail200 (List.replicate 150 (Char.ofNat 162))) = 300 := by
  constructor
  · decide
  · decide

/-- C8 amended: on an unmet expectation the input step and the wait step
raise errors whose message carries the expectation's repr and the last at
most 200 characters of the decoded buffer text — a suffix of it of length at
most 200 (the code slices the decoded string, so the unit is characters, not
bytes). -/
theorem c8_timeout_payload (condRepr bufText : List Char) :
    inputExpectOutcome false condRepr bufText
      = Except.error (chars "Condition not met for input step. Expectation: " ++ condRepr
        ++ chars ", buffer tail: " ++ tail200 bufText)
  ∧ waitStepOutcome false condRepr bufText
      = Except.error (chars "Wait step timed out. Expectation: " ++ condRepr
        ++ chars ", buffer tail: " ++ tail200 bufText)
  ∧ inputExpectOutcome true condRepr bufText = Except.ok ()
  ∧ waitStepOutcome true condRepr bufText = Except.ok ()
  ∧ (tail200 bufText).length ≤ 200
  ∧ List.IsSuffix (tail200 bufText) bufText := by
  refine ⟨rfl, rfl, rfl, rfl, ?_, ?_⟩
  · rw [tail200, List.length_drop]
    omega
  · exact List.drop_suffix _ _

/-- C9 counterexample: `OutputCondition(contains="")` constructs successfully
and the empty string is a substring of every text, yet `matches` returns
false — the truthiness guard `if self.contains` skips an empty string. -/
theorem c9_counterexample :
    mkOutputCondition (fun _ => true) (some []) none none
      = Except.ok ⟨some [], none, none⟩
  ∧ List.IsInfix ([] : List Char) (chars "abc")
  ∧ ocMatches (fun _ _ => false) ⟨some [], none, none⟩ (chars "abc") = false := by
  exact ⟨rfl, by decide, rfl⟩

/-- C9 amended: `matches` returns true iff a present and non-empty `contains`
is a substring of the text, or a present and non-empty `regex` matches, or a
present custom predicate returns true (Python truthiness silently disables
empty strings); constructing with all three fields absent fails, and so does
a present regex that fails the host's syntax check. -/
theorem c9_output_condition (search : List Char → List Char → Bool)
    (valid : List Char → Bool) (c : OutputCondition) (text r : List Char)
    (co : Option (List Char)) (pr : Option (List Char → Bool)) :
    (ocMatches search c text = true ↔
      ((∃ s, c.contains = some s ∧ s ≠ [] ∧ List.IsInfix s text)
        ∨ (∃ rx, c.regex = some rx ∧ rx ≠ [] ∧ search rx text = true)
        ∨ (∃ p, c.predicate = some p ∧ p text = true)))
  ∧ mkOutputCondition valid none none none
      = Except.error (chars "At least one condition must be provided")
  ∧ (valid r = false →
      mkOutputCondition valid co (some r) pr
        = Except.error (chars "invalid regex pattern")) := by
  refine ⟨?_, rfl, ?_⟩
  · rcases c with ⟨co', re', pr'⟩
    unfold ocMatches
    cases co' <;> cases re' <;> cases pr' <;>
      simp [List.isEmpty_iff, decide_eq_true_iff, and_assoc]
  · intro hv
    simp [mkOutputCondition, hv]

/-- C9 witness: a non-empty `contains` that occurs in the text matches, and
an invalid regex is rejected at construction. -/
theorem c9_output_condition_witness :
    ocMatches (fun _ _ => false) ⟨some (chars "he"), none, none⟩ (chars "hello") = true
  ∧ mkOutputCondition (fun _ => false) none (some (chars "(")) none
      = Except.error (chars "invalid regex pattern") := by
  have h := c9_output_condition (fun _ _ => false) (fun _ => false)
    ⟨some (chars "he"), none, none⟩ (chars "hello") (chars "(") none none
  exact ⟨h.1.mpr (Or.inl ⟨chars "he", rfl, by decide, by decide⟩), h.2.2 rfl⟩

/-- C7: `wait` translates a negative returncode to `{signal = |rc|}` and a
non-negative one to `{returncode = rc}`; in every status it produces at most
one field is present, and `succeeded` holds iff the returncode is zero and
no signal is present. -/
theorem c7_wait_exit_status (rc : Int) (orc : Option Int) (s : PtyExitStatus) :
    (rc < 0 → waitExit (some rc) = ⟨none, some |rc|⟩)
  ∧ (0 ≤ rc → waitExit (some rc) = ⟨some rc, none⟩)
  ∧ ((waitExit orc).returncode = none ∨ (waitExit orc).signal = none)
  ∧ (succeeded s = true ↔ s.returncode = some 0 ∧ s.signal = none)
  := by
  refine ⟨?_, ?_, ?_, ?_⟩
  · intro h; simp [waitExit, h]
  · intro h; simp [waitExit, Int.not_lt.mpr h]
  · match orc with
    | none => left; rfl
    | some r =>
      by_cases h : r < 0
      · left; simp [waitExit, h]
      · right; simp [waitExit, h]
  · simp [succeeded]

/-- C7 witness: returncode `-9` becomes signal 9, returncode 0 succeeds. -/
theorem c7_wait_exit_status_witness :
    waitExit (some (-9)) = ⟨none, some 9⟩
  ∧ waitExit (some 0) = ⟨some 0, none⟩
  ∧ succeeded ⟨some 0, none⟩ = true := by
  have h9 := c7_wait_exit_status (-9) (some (-9)) ⟨some 0, none⟩
  have h0 := c7_wait_exit_status 0 (some 0) ⟨some 0, none⟩
  exact ⟨(h9.1 (by decide)).trans (by decide), h0.2.1 (by decide),
    h0.2.2.2.mpr ⟨rfl, rfl⟩⟩

end Timewalker
